import Mathlib

/-!
# Verification of the HelloPrint offer-selection engine

Shallow embedding of `src/inference.py` (class `InferenceEngine`) and the
feature derivation it shares with `src/features.py`.

Modelling conventions:

* Python floats are modelled as exact rationals (`ℚ`).  `np.log1p` is a
  transcendental primitive external to the repository; the embedding abstracts
  it as an explicit parameter `log1p : ℚ → ℚ` threaded through the functions
  that call it.
* A pandas `DataFrame` of offers is modelled as a `List` of records; adding a
  column corresponds to moving to a record type with one more field.
* The fitted pipeline loaded by `__init__` (`prep.transform` composed with
  `model.predict_proba[:, 1]`) is an opaque deterministic scoring function,
  modelled as the engine field `predictProba`.
* The only failure in `select_best_offer` is
  `raise RuntimeError("No feasible offer meets margin floor")`; it is modelled
  by the error value `SelectError.infeasible`.
-/

namespace HelloPrint

/-- One raw supplier offer: the input columns of the `offers` dataframe that
`select_best_offer` reads (`supplier_id`, `unit_price`, `lead_time_days`,
`quoted_margin_pct`, `quantity`).  The remaining columns (`product_type`,
`tier`, `region`, `on_time_rate`) are consumed only by the opaque estimator
and never inspected by the engine logic, so they are elided from the record. -/
structure Offer where
  supplier_id : String
  unit_price : ℚ
  lead_time_days : ℚ
  quoted_margin_pct : ℚ
  quantity : ℚ
deriving Repr, DecidableEq, Inhabited

/-- A row of the dataframe after `_add_derived`: the offer plus the engineered
columns `price_delta_pct`, `lead_delta_days`, `quantity_log`. -/
structure DerivedOffer where
  offer : Offer
  price_delta_pct : ℚ
  lead_delta_days : ℚ
  quantity_log : ℚ
deriving Repr, DecidableEq, Inhabited

/-- A row after `df["p_win"] = ...` and `df["utility"] = ...` in
`select_best_offer`. -/
structure ScoredOffer where
  doffer : DerivedOffer
  p_win : ℚ
  utility : ℚ
deriving Repr, DecidableEq, Inhabited

/-- The `quoted_margin_pct` column read back from a scored row. -/
def ScoredOffer.margin (s : ScoredOffer) : ℚ :=
  s.doffer.offer.quoted_margin_pct

/-- A row after `df["selected"] = [int(x_vars[i].value()) for i in df.index]`:
a scored row plus the 0/1 `selected` column. -/
structure RankedRow where
  scored : ScoredOffer
  selected : Bool
deriving Repr, DecidableEq, Inhabited

/-- The `best_offer` dict built at the end of `select_best_offer`. -/
structure BestOffer where
  supplier_id : String
  p_win : ℚ
  margin_pct : ℚ
  utility : ℚ
deriving Repr, DecidableEq, Inhabited

/-- The failure of `select_best_offer`: the single
`raise RuntimeError("No feasible offer meets margin floor")` executed when the
solver status is not `Optimal`. -/
inductive SelectError where
  | infeasible
deriving Repr, DecidableEq, Inhabited

/-- The state held by an `InferenceEngine` instance after `__init__`: the
margin floor and the loaded scoring pipeline (`prep` + `clf`), the latter as an
opaque deterministic function from derived rows to win probabilities. -/
structure InferenceEngine where
  marginFloor : ℚ
  predictProba : List DerivedOffer → List ℚ

/-- The default value `margin_floor: float = 0.20` of `InferenceEngine.__init__`. -/
def defaultMarginFloor : ℚ := 1/5

/-- `InferenceEngine.__init__` called without an explicit `margin_floor`:
loads the pipeline (opaque) and stores the default floor `0.20`. -/
def InferenceEngine.initDefault (pipeline : List DerivedOffer → List ℚ) :
    InferenceEngine :=
  { marginFloor := defaultMarginFloor, predictProba := pipeline }

/-- `df.unit_price.min()` / `df.lead_time_days.min()`: the minimum of a column.
On an empty frame pandas yields NaN, but the empty frame also produces no rows,
so the value returned for `[]` is never consumed; `0` is an arbitrary filler. -/
def batchMin (xs : List ℚ) : ℚ :=
  match xs with
  | [] => 0
  | x :: rest => rest.foldl min x

/-- `InferenceEngine._add_derived`: copies the frame and adds the engineered
columns
`df["price_delta_pct"] = df.unit_price / df.unit_price.min() - 1`,
`df["lead_delta_days"] = df.lead_time_days - df.lead_time_days.min()`,
`df["quantity_log"] = np.log1p(df.quantity)`.
The method performs no validation of its input. -/
def _add_derived (log1p : ℚ → ℚ) (offers : List Offer) : List DerivedOffer :=
  offers.map fun o =>
    { offer := o
      price_delta_pct :=
        o.unit_price / batchMin (offers.map (fun p => p.unit_price)) - 1
      lead_delta_days :=
        o.lead_time_days - batchMin (offers.map (fun p => p.lead_time_days))
      quantity_log := log1p o.quantity }

/-- `InferenceEngine.predict_prob`: re-derives the engineered columns and runs
the loaded pipeline.  (In `select_best_offer` it is applied to a frame that
already carries the derived columns; `_add_derived` recomputes them from the
unchanged raw columns, so the pipeline receives the same derived rows.) -/
def predict_prob (log1p : ℚ → ℚ) (e : InferenceEngine) (offers : List Offer) :
    List ℚ :=
  e.predictProba (_add_derived log1p offers)

/-- The frame after the three column builds at the top of `select_best_offer`:
`df = self._add_derived(df)`, `df["p_win"] = self.predict_prob(df)`,
`df["utility"] = df["p_win"] * df["quoted_margin_pct"]`. -/
def scoreOffers (log1p : ℚ → ℚ) (e : InferenceEngine) (offers : List Offer) :
    List ScoredOffer :=
  ((_add_derived log1p offers).zip (predict_prob log1p e offers)).map
    fun dp =>
      { doffer := dp.1
        p_win := dp.2
        utility := dp.2 * dp.1.offer.quoted_margin_pct }

/-- The 0/1 program built and solved in `select_best_offer`:
maximise `Σ utility_i · x_i` subject to
`Σ quoted_margin_pct_i · x_i ≥ margin_floor`, `Σ x_i = 1`, `x_i ∈ {0,1}`.
Because `Σ x_i = 1` forces exactly one `x_i = 1`, a feasible point is exactly
the choice of one row with `quoted_margin_pct ≥ margin_floor`, and an optimum
is such a row of maximal `utility`.  The external CBC solve
(`prob.solve(pulp.PULP_CBC_CMD(msg=False))`) returns some optimum when the
problem is feasible and a non-`Optimal` status otherwise; this model returns
the lowest-index optimum (which tied optimum CBC itself reports is not
specified by the repository).  `none` models the non-`Optimal` status. -/
def solveILP (floor : ℚ) : List ScoredOffer → Option (ℕ × ScoredOffer)
  | [] => none
  | s :: rest =>
    match solveILP floor rest with
    | none => if floor ≤ s.margin then some (0, s) else none
    | some (j, t) =>
      if floor ≤ s.margin ∧ t.utility ≤ s.utility then some (0, s)
      else some (j + 1, t)

/-- `df["selected"] = [int(x_vars[i].value()) for i in df.index]` written as a
recursion over the rows: the row at running index `i` gets `selected = 1` when
`i` is the index chosen by the solve.  `markFrom k i rows` labels `rows`
beginning at running index `i`. -/
def markFrom (k : ℕ) : ℕ → List ScoredOffer → List RankedRow
  | _, [] => []
  | i, s :: rest => { scored := s, selected := i == k } :: markFrom k (i + 1) rest

/-- The `selected` column build: the row whose positional index equals the
solver's chosen index `k` gets `true`, every other row `false`. -/
def markSelected (rows : List ScoredOffer) (k : ℕ) : List RankedRow :=
  markFrom k 0 rows

/-- The ordering key of `df.sort_values("utility", ascending=False)`. -/
def leUtil (a b : RankedRow) : Prop :=
  a.scored.utility ≤ b.scored.utility

instance : DecidableRel leUtil := fun a b =>
  inferInstanceAs (Decidable (a.scored.utility ≤ b.scored.utility))

instance : IsTotal RankedRow leUtil :=
  ⟨fun a b => le_total a.scored.utility b.scored.utility⟩

instance : IsTrans RankedRow leUtil :=
  ⟨fun _ _ _ hab hbc => le_trans hab hbc⟩

/-- `df.sort_values("utility", ascending=False).reset_index(drop=True)`:
pandas (`nargsort`) implements `ascending=False` by reversing the values and
the index, taking an ascending argsort of the reversed array, and reversing
the resulting indexer again.  On the small batches this engine handles,
numpy's default sort degenerates to insertion sort, which is stable, so the
descending frame is `reverse (stable ascending sort (reverse rows))` and rows
of equal `utility` keep their input relative order. -/
def sortValuesUtilityDesc (rows : List RankedRow) : List RankedRow :=
  (List.insertionSort leUtil rows.reverse).reverse

/-- `df.loc[df.selected == 1].iloc[0]`: the first row of the frame restricted
to `selected` rows.  (`iloc[0]` on an empty selection would raise; the
selection provably holds exactly one row, so the `default` filler of `headD`
is never consumed.) -/
def bestRow (ranked : List RankedRow) : RankedRow :=
  (ranked.filter (fun r => r.selected)).headD default

/-- Python `round(x, 3)` on an exact value: round half to even at the third
decimal place. -/
def roundHalfEven (q : ℚ) : ℤ :=
  if q - ⌊q⌋ < 1/2 then ⌊q⌋
  else if (1:ℚ)/2 < q - ⌊q⌋ then ⌊q⌋ + 1
  else if ⌊q⌋ % 2 = 0 then ⌊q⌋ else ⌊q⌋ + 1

/-- `round(·, 3)`. -/
def pyRound3 (q : ℚ) : ℚ :=
  (roundHalfEven (q * 1000) : ℚ) / 1000

/-- The `best_offer` dict literal at the end of `select_best_offer`: the
selected row's supplier identifier, with `p_win`, `quoted_margin_pct` and
`utility` each passed through `round(·, 3)`. -/
def bestSummary (r : RankedRow) : BestOffer :=
  { supplier_id := r.scored.doffer.offer.supplier_id
    p_win := pyRound3 r.scored.p_win
    margin_pct := pyRound3 r.scored.margin
    utility := pyRound3 r.scored.utility }

/-- The ranked frame returned on success, given the solver's chosen index `k`:
the `selected` column build followed by the descending sort. -/
def rankedTable (log1p : ℚ → ℚ) (e : InferenceEngine) (offers : List Offer)
    (k : ℕ) : List RankedRow :=
  sortValuesUtilityDesc (markSelected (scoreOffers log1p e offers) k)

/-- `InferenceEngine.select_best_offer`.  The body starts with
`df = offers.copy().reset_index(drop=True)`, so every subsequent column write
and the sort act on a fresh positionally-indexed copy; the embedding therefore
computes from the value of `offers` alone.  It scores the offers, solves the
0/1 program, and on success returns the summary dict of the selected row and
the descending-sorted frame; a non-`Optimal` solver status raises
`RuntimeError("No feasible offer meets margin floor")`. -/
def select_best_offer (log1p : ℚ → ℚ) (e : InferenceEngine)
    (offers : List Offer) :
    Except SelectError (BestOffer × List RankedRow) :=
  match solveILP e.marginFloor (scoreOffers log1p e offers) with
  | none => .error .infeasible
  | some (k, _) =>
    .ok (bestSummary (bestRow (rankedTable log1p e offers k)),
         rankedTable log1p e offers k)

/-- The call boundary of `select_best_offer` with the caller's `offers` frame
made explicit as state.  The method's first statement copies the argument
(`offers.copy().reset_index(drop=True)`) and every later in-place write
(`df["p_win"] = ...`, `df["utility"] = ...`, `df["selected"] = ...`, the sort)
targets that copy, so the computation only reads the state and never writes
it back. -/
def select_best_offer_call (log1p : ℚ → ℚ) (e : InferenceEngine) :
    StateM (List Offer) (Except SelectError (BestOffer × List RankedRow)) := do
  let offers ← get
  pure (select_best_offer log1p e offers)

/-- The ranked frame of a selection result: the returned frame on success,
no rows when the call failed (an exception propagates, no frame is returned). -/
def rankedOf (res : Except SelectError (BestOffer × List RankedRow)) :
    List RankedRow :=
  match res with
  | .error _ => []
  | .ok (_, ranked) => ranked

/-! ## Concrete test fixtures

Small offer batches used to exercise the embedded engine on closed inputs:
two offers that tie on every numeric column, a dominating offer, an offer
below the default floor, and offers with negative columns. -/

def offerA : Offer :=
  { supplier_id := "A", unit_price := 1, lead_time_days := 1,
    quoted_margin_pct := 1/4, quantity := 1 }

def offerB : Offer :=
  { supplier_id := "B", unit_price := 1, lead_time_days := 1,
    quoted_margin_pct := 1/4, quantity := 1 }

def offerC : Offer :=
  { supplier_id := "C", unit_price := 2, lead_time_days := 3,
    quoted_margin_pct := 1/2, quantity := 1 }

def offerLow : Offer :=
  { supplier_id := "L", unit_price := 1, lead_time_days := 1,
    quoted_margin_pct := 1/10, quantity := 1 }

def offerNegP : Offer :=
  { supplier_id := "P", unit_price := -2, lead_time_days := -3,
    quoted_margin_pct := 1/4, quantity := 7 }

def offerNegQ : Offer :=
  { supplier_id := "Q", unit_price := -1, lead_time_days := 0,
    quoted_margin_pct := 1/4, quantity := 7 }

/-- A constant estimator: every offer gets win probability `1/2`.  Satisfies
the estimator contract (one probability per row, deterministic). -/
def egEngine : InferenceEngine :=
  { marginFloor := 1/5, predictProba := fun d => d.map (fun _ => 1/2) }

def exA : ScoredOffer :=
  { doffer := { offer := offerA, price_delta_pct := 0, lead_delta_days := 0,
                quantity_log := 1 },
    p_win := 1/2, utility := 1/8 }

def exB : ScoredOffer :=
  { doffer := { offer := offerB, price_delta_pct := 0, lead_delta_days := 0,
                quantity_log := 1 },
    p_win := 1/2, utility := 1/8 }

def exC : ScoredOffer :=
  { doffer := { offer := offerC, price_delta_pct := 1, lead_delta_days := 2,
                quantity_log := 1 },
    p_win := 1/2, utility := 1/4 }

def bestA : BestOffer :=
  { supplier_id := "A", p_win := 1/2, margin_pct := 1/4, utility := 1/8 }

def bestC : BestOffer :=
  { supplier_id := "C", p_win := 1/2, margin_pct := 1/2, utility := 1/4 }

def rankedAC : List RankedRow :=
  [{ scored := exC, selected := true }, { scored := exA, selected := false }]

def rankedAB : List RankedRow :=
  [{ scored := exA, selected := true }, { scored := exB, selected := false }]

/-- The derived row of `offerNegQ` in the batch `[offerNegP, offerNegQ]`:
with the negative minimum unit price `-2`, its price delta is negative. -/
def negDQ : DerivedOffer :=
  { offer := offerNegQ, price_delta_pct := -(1/2), lead_delta_days := 3,
    quantity_log := 7 }

/-! ## Basic lemmas about the embedded operations -/

theorem foldlMin_le_init (l : List ℚ) : ∀ a : ℚ, l.foldl min a ≤ a := by
  induction l with
  | nil => intro a; exact le_refl a
  | cons y l ih =>
    intro a
    exact le_trans (ih (min a y)) (min_le_left a y)

theorem foldlMin_le_mem {x : ℚ} : ∀ {l : List ℚ}, x ∈ l → ∀ a : ℚ, l.foldl min a ≤ x := by
  intro l
  induction l with
  | nil => intro hx; cases hx
  | cons y l ih =>
    intro hx a
    rcases List.mem_cons.mp hx with hxy | hxl
    · subst hxy
      exact le_trans (foldlMin_le_init l (min a x)) (min_le_right a x)
    · exact ih hxl (min a y)

theorem foldlMin_mem : ∀ (l : List ℚ) (a : ℚ), l.foldl min a = a ∨ l.foldl min a ∈ l := by
  intro l
  induction l with
  | nil => intro a; exact Or.inl rfl
  | cons y l ih =>
    intro a
    rcases ih (min a y) with h | h
    · rcases min_choice a y with hy | hy
      · exact Or.inl (h.trans hy)
      · exact Or.inr (List.mem_cons.mpr (Or.inl (h.trans hy)))
    · exact Or.inr (List.mem_cons.mpr (Or.inr h))

theorem batchMin_le {xs : List ℚ} {x : ℚ} (hx : x ∈ xs) : batchMin xs ≤ x := by
  match xs, hx with
  | y :: rest, hx =>
    rcases List.mem_cons.mp hx with h | h
    · subst h; exact foldlMin_le_init rest x
    · exact foldlMin_le_mem h y

theorem batchMin_mem {xs : List ℚ} (h : xs ≠ []) : batchMin xs ∈ xs := by
  match xs, h with
  | y :: rest, _ =>
    rcases foldlMin_mem rest y with he | he
    · exact List.mem_cons.mpr (Or.inl he)
    · exact List.mem_cons.mpr (Or.inr he)

theorem batchMin_pos {xs : List ℚ} (hne : xs ≠ []) (hpos : ∀ x ∈ xs, 0 < x) :
    0 < batchMin xs :=
  hpos _ (batchMin_mem hne)

theorem _add_derived_length (log1p : ℚ → ℚ) (offers : List Offer) :
    (_add_derived log1p offers).length = offers.length := by
  simp [_add_derived]

theorem _add_derived_map_offer (log1p : ℚ → ℚ) (offers : List Offer) :
    (_add_derived log1p offers).map (fun d => d.offer) = offers := by
  unfold _add_derived
  rw [List.map_map]
  exact List.map_id offers

theorem scoreOffers_map_doffer (log1p : ℚ → ℚ) (e : InferenceEngine)
    (offers : List Offer)
    (hlen : (predict_prob log1p e offers).length = offers.length) :
    (scoreOffers log1p e offers).map (fun s => s.doffer) = _add_derived log1p offers := by
  unfold scoreOffers
  rw [List.map_map]
  exact List.map_fst_zip _ _ (by rw [_add_derived_length, hlen])

theorem scoreOffers_map_offer (log1p : ℚ → ℚ) (e : InferenceEngine)
    (offers : List Offer)
    (hlen : (predict_prob log1p e offers).length = offers.length) :
    (scoreOffers log1p e offers).map (fun s => s.doffer.offer) = offers := by
  conv_rhs =>
    rw [← _add_derived_map_offer log1p offers,
      ← scoreOffers_map_doffer log1p e offers hlen]
  rw [List.map_map]
  rfl

/-- Transfer of the margin test between the scored frame and the raw offers. -/
theorem scoreOffers_margin_iff (log1p : ℚ → ℚ) (e : InferenceEngine)
    (offers : List Offer)
    (hlen : (predict_prob log1p e offers).length = offers.length) (f : ℚ) :
    (∀ s ∈ scoreOffers log1p e offers, s.margin < f) ↔
      ∀ o ∈ offers, o.quoted_margin_pct < f := by
  constructor
  · intro h o ho
    rw [← scoreOffers_map_offer log1p e offers hlen] at ho
    rcases List.mem_map.mp ho with ⟨s, hs, rfl⟩
    exact h s hs
  · intro h s hs
    have hmem : s.doffer.offer ∈ offers := by
      rw [← scoreOffers_map_offer log1p e offers hlen]
      exact List.mem_map.mpr ⟨s, hs, rfl⟩
    exact h _ hmem

/-- The non-`Optimal` status of the solve happens exactly when no offer meets
the margin floor. -/
theorem solveILP_none {floor : ℚ} : ∀ {rows : List ScoredOffer},
    solveILP floor rows = none ↔ ∀ s ∈ rows, s.margin < floor := by
  intro rows
  induction rows with
  | nil => simp [solveILP]
  | cons s rest ih =>
    rw [solveILP]
    cases hrec : solveILP floor rest with
    | none =>
      by_cases hm : floor ≤ s.margin
      · apply iff_of_false
        · simp [hm]
        · intro hall
          exact absurd (hall s (List.mem_cons_self s rest)) (not_lt.mpr hm)
      · apply iff_of_true
        · simp [hm]
        · intro v hv
          rcases List.mem_cons.mp hv with h | h
          · subst h; exact not_le.mp hm
          · exact (ih.mp hrec) v h
    | some ju =>
      apply iff_of_false
      · rcases ju with ⟨j, u⟩
        by_cases hc : floor ≤ s.margin ∧ u.utility ≤ s.utility <;> simp [hc]
      · intro hall
        have : solveILP floor rest = none :=
          ih.mpr fun v hv => hall v (List.mem_cons_of_mem s hv)
        rw [this] at hrec
        cases hrec

/-- Soundness of the solve: a returned pair is a row of the frame at its index,
it meets the margin floor, and its utility is maximal among floor-meeting rows
(any optimum of the 0/1 program has these properties). -/
theorem solveILP_some {floor : ℚ} : ∀ {rows : List ScoredOffer} {k : ℕ} {t : ScoredOffer},
    solveILP floor rows = some (k, t) →
    rows[k]? = some t ∧ floor ≤ t.margin ∧
      ∀ s ∈ rows, floor ≤ s.margin → s.utility ≤ t.utility := by
  intro rows
  induction rows with
  | nil => intro k t h; simp [solveILP] at h
  | cons s rest ih =>
    intro k t h
    cases hrec : solveILP floor rest with
    | none =>
      simp only [solveILP, hrec] at h
      by_cases hm : floor ≤ s.margin
      · rw [if_pos hm] at h
        obtain ⟨rfl, rfl⟩ : 0 = k ∧ s = t := by
          simpa [eq_comm] using h
        refine ⟨by simp, hm, ?_⟩
        intro v hv hvm
        rcases List.mem_cons.mp hv with h | h
        · subst h; exact le_refl _
        · exact absurd hvm (not_le.mpr ((solveILP_none.mp hrec) v h))
      · rw [if_neg hm] at h
        cases h
    | some ju =>
      rcases ju with ⟨j, u⟩
      simp only [solveILP, hrec] at h
      obtain ⟨hju, hum, hmax⟩ := ih hrec
      by_cases hc : floor ≤ s.margin ∧ u.utility ≤ s.utility
      · rw [if_pos hc] at h
        obtain ⟨rfl, rfl⟩ : 0 = k ∧ s = t := by
          simpa [eq_comm] using h
        refine ⟨by simp, hc.1, ?_⟩
        intro v hv hvm
        rcases List.mem_cons.mp hv with h | h
        · subst h; exact le_refl _
        · exact le_trans (hmax v h hvm) hc.2
      · rw [if_neg hc] at h
        obtain ⟨rfl, rfl⟩ : j + 1 = k ∧ u = t := by
          simpa [eq_comm] using h
        refine ⟨by simpa using hju, hum, ?_⟩
        intro v hv hvm
        rcases List.mem_cons.mp hv with h | h
        · subst h
          have : ¬ u.utility ≤ v.utility := fun hle => hc ⟨hvm, hle⟩
          exact (not_le.mp this).le
        · exact hmax v h hvm

theorem markFrom_map_scored (k : ℕ) : ∀ (rows : List ScoredOffer) (i : ℕ),
    (markFrom k i rows).map (fun r => r.scored) = rows := by
  intro rows
  induction rows with
  | nil => intro i; rfl
  | cons s rest ih => intro i; simp [markFrom, ih]

theorem markFrom_filter_high {k : ℕ} : ∀ (rows : List ScoredOffer) {i : ℕ}, k < i →
    (markFrom k i rows).filter (fun r => r.selected) = [] := by
  intro rows
  induction rows with
  | nil => intro i _; rfl
  | cons s rest ih =>
    intro i hki
    have hik : (i == k) = false := by
      simp [Nat.ne_of_gt hki]
    simp only [markFrom, List.filter_cons, hik]
    exact ih (Nat.lt_succ_of_lt hki)

theorem markFrom_filter_sel {k : ℕ} : ∀ (rows : List ScoredOffer) (i j : ℕ)
    (t : ScoredOffer), rows[j]? = some t → i + j = k →
    (markFrom k i rows).filter (fun r => r.selected) =
      [{ scored := t, selected := true }] := by
  intro rows
  induction rows with
  | nil => intro i j t h _; simp at h
  | cons s rest ih =>
    intro i j t h hk
    match j with
    | 0 =>
      obtain rfl : s = t := by simpa using h
      obtain rfl : i = k := by simpa using hk
      have hsel : (i == i) = true := by simp
      simp only [markFrom, List.filter_cons, hsel, if_pos]
      rw [markFrom_filter_high rest (Nat.lt_succ_self i)]
    | j + 1 =>
      have hj : rest[j]? = some t := by simpa using h
      have hik : (i == k) = false := by
        have : i ≠ k := by omega
        simp [this]
      simp only [markFrom, List.filter_cons, hik]
      exact ih (i + 1) j t hj (by omega)

theorem markSelected_filter {rows : List ScoredOffer} {k : ℕ} {t : ScoredOffer}
    (h : rows[k]? = some t) :
    (markSelected rows k).filter (fun r => r.selected) =
      [{ scored := t, selected := true }] :=
  markFrom_filter_sel rows 0 k t h (Nat.zero_add k)

theorem markSelected_map_scored (rows : List ScoredOffer) (k : ℕ) :
    (markSelected rows k).map (fun r => r.scored) = rows :=
  markFrom_map_scored k rows 0

theorem sortValues_perm (rows : List RankedRow) :
    (sortValuesUtilityDesc rows).Perm rows :=
  (List.reverse_perm _).trans
    ((List.perm_insertionSort _ _).trans (List.reverse_perm _))

theorem sortValues_sorted (rows : List RankedRow) :
    List.Pairwise (fun a b : RankedRow => b.scored.utility ≤ a.scored.utility)
      (sortValuesUtilityDesc rows) := by
  unfold sortValuesUtilityDesc
  rw [List.pairwise_reverse]
  exact List.sorted_insertionSort leUtil rows.reverse

/-- Stability of `orderedInsert` on a utility class: an inserted row of the
class goes in front of the class (every row skipped on the way in is strictly
smaller). -/
theorem orderedInsert_filter_eq {u : ℚ} {a : RankedRow}
    (ha : a.scored.utility = u) :
    ∀ l : List RankedRow,
      (List.orderedInsert leUtil a l).filter (fun r => r.scored.utility = u) =
        a :: l.filter (fun r => r.scored.utility = u) := by
  intro l
  induction l with
  | nil => simp [ha]
  | cons b l ih =>
    have hunfold : List.orderedInsert leUtil a (b :: l) =
        if leUtil a b then a :: b :: l else b :: List.orderedInsert leUtil a l := rfl
    by_cases hab : leUtil a b
    · rw [hunfold, if_pos hab]
      simp [List.filter_cons, ha]
    · have hbne : b.scored.utility ≠ u := by
        rw [← ha]
        exact ne_of_lt (not_le.mp hab)
      rw [hunfold, if_neg hab]
      simp [List.filter_cons, hbne, ih]

/-- Rows outside a utility class are unaffected by inserting into it. -/
theorem orderedInsert_filter_ne {u : ℚ} {a : RankedRow}
    (ha : a.scored.utility ≠ u) :
    ∀ l : List RankedRow,
      (List.orderedInsert leUtil a l).filter (fun r => r.scored.utility = u) =
        l.filter (fun r => r.scored.utility = u) := by
  intro l
  induction l with
  | nil => simp [ha]
  | cons b l ih =>
    have hunfold : List.orderedInsert leUtil a (b :: l) =
        if leUtil a b then a :: b :: l else b :: List.orderedInsert leUtil a l := rfl
    by_cases hab : leUtil a b
    · rw [hunfold, if_pos hab]
      simp [List.filter_cons, ha]
    · rw [hunfold, if_neg hab]
      by_cases hb : b.scored.utility = u
      · simp [List.filter_cons, hb, ih]
      · simp [List.filter_cons, hb, ih]

/-- Stability of the ascending insertion sort: each utility class comes out in
its input order. -/
theorem insertionSort_filter_class (u : ℚ) :
    ∀ l : List RankedRow,
      (List.insertionSort leUtil l).filter (fun r => r.scored.utility = u) =
        l.filter (fun r => r.scored.utility = u) := by
  intro l
  induction l with
  | nil => rfl
  | cons a l ih =>
    by_cases ha : a.scored.utility = u
    · simp only [List.insertionSort]
      rw [orderedInsert_filter_eq ha, ih, List.filter_cons]
      simp [ha]
    · simp only [List.insertionSort]
      rw [orderedInsert_filter_ne ha, ih, List.filter_cons]
      simp [ha]

/-- Stability of the descending sort: the double reversal around the stable
ascending sort cancels on each utility class, so equal-utility rows keep
their input relative order. -/
theorem sortValues_filter_class (rows : List RankedRow) (u : ℚ) :
    (sortValuesUtilityDesc rows).filter (fun r => r.scored.utility = u) =
      rows.filter (fun r => r.scored.utility = u) := by
  unfold sortValuesUtilityDesc
  rw [List.filter_reverse, insertionSort_filter_class, List.filter_reverse,
    List.reverse_reverse]

/-- Inversion of a successful call: the solver chose some index and row, and
the outputs are built from that choice. -/
theorem select_ok_elim {log1p : ℚ → ℚ} {e : InferenceEngine} {offers : List Offer}
    {best : BestOffer} {ranked : List RankedRow}
    (h : select_best_offer log1p e offers = .ok (best, ranked)) :
    ∃ k t, solveILP e.marginFloor (scoreOffers log1p e offers) = some (k, t) ∧
      best = bestSummary (bestRow (rankedTable log1p e offers k)) ∧
      ranked = rankedTable log1p e offers k := by
  unfold select_best_offer at h
  cases hs : solveILP e.marginFloor (scoreOffers log1p e offers) with
  | none => rw [hs] at h; cases h
  | some kt =>
    rcases kt with ⟨k, t⟩
    rw [hs] at h
    refine ⟨k, t, rfl, ?_, ?_⟩
    · exact (congrArg Prod.fst (Except.ok.inj h)).symm
    · exact (congrArg Prod.snd (Except.ok.inj h)).symm

theorem select_error_iff {log1p : ℚ → ℚ} {e : InferenceEngine} {offers : List Offer} :
    select_best_offer log1p e offers = .error .infeasible ↔
      solveILP e.marginFloor (scoreOffers log1p e offers) = none := by
  unfold select_best_offer
  cases hs : solveILP e.marginFloor (scoreOffers log1p e offers) with
  | none => simp
  | some kt => rcases kt with ⟨k, t⟩; simp

/-- On success the `selected` rows of the returned frame form the singleton of
the solver's chosen row. -/
theorem ranked_filter_selected {log1p : ℚ → ℚ} {e : InferenceEngine}
    {offers : List Offer} {k : ℕ} {t : ScoredOffer}
    (hs : solveILP e.marginFloor (scoreOffers log1p e offers) = some (k, t)) :
    (rankedTable log1p e offers k).filter (fun r => r.selected) =
      [{ scored := t, selected := true }] := by
  obtain ⟨hget, _, _⟩ := solveILP_some hs
  have hmark := markSelected_filter hget
  have hperm : ((rankedTable log1p e offers k).filter (fun r => r.selected)).Perm
      ((markSelected (scoreOffers log1p e offers) k).filter (fun r => r.selected)) :=
    (sortValues_perm _).filter _
  rw [hmark] at hperm
  exact List.perm_singleton.mp hperm

theorem bestRow_of_filter {ranked : List RankedRow} {r : RankedRow}
    (h : ranked.filter (fun q => q.selected) = [r]) : bestRow ranked = r := by
  unfold bestRow
  rw [h]
  rfl

/-! ## Claims -/

/-- C1: whenever `select_best_offer` succeeds, exactly one row of the returned
ranked frame has `selected = true`; that row meets the margin floor and
attains the maximum utility (`p_win × quoted_margin_pct`) among the rows whose
`quoted_margin_pct` is at least the engine's margin floor.  (On failure the
`Except.error` result carries no frame and no summary, so zero rows are
selected by construction.) -/
theorem select_unique_selected_max (log1p : ℚ → ℚ) (e : InferenceEngine)
    (offers : List Offer) (best : BestOffer) (ranked : List RankedRow)
    (h : select_best_offer log1p e offers = .ok (best, ranked)) :
    ranked.countP (fun r => r.selected) = 1 ∧
    bestRow ranked ∈ ranked ∧ (bestRow ranked).selected = true ∧
    e.marginFloor ≤ (bestRow ranked).scored.margin ∧
    ∀ r ∈ ranked, e.marginFloor ≤ r.scored.margin →
      r.scored.utility ≤ (bestRow ranked).scored.utility := by
  obtain ⟨k, t, hs, hbest, hranked⟩ := select_ok_elim h
  subst hranked
  have hfil := ranked_filter_selected hs
  have hbr : bestRow (rankedTable log1p e offers k) =
      { scored := t, selected := true } := bestRow_of_filter hfil
  have hmem : ({ scored := t, selected := true } : RankedRow) ∈
      rankedTable log1p e offers k := by
    apply List.mem_of_mem_filter (p := fun r => r.selected)
    rw [hfil]
    exact List.mem_singleton_self _
  refine ⟨?_, ?_, ?_, ?_, ?_⟩
  · rw [List.countP_eq_length_filter, hfil]
    rfl
  · rw [hbr]; exact hmem
  · rw [hbr]
  · rw [hbr]; exact (solveILP_some hs).2.1
  · intro r hr hm
    rw [hbr]
    have hscored : r.scored ∈ scoreOffers log1p e offers := by
      have h1 : r.scored ∈ (rankedTable log1p e offers k).map (fun q => q.scored) :=
        List.mem_map_of_mem _ hr

      have h2 := ((sortValues_perm (markSelected (scoreOffers log1p e offers) k)).map
        (fun q : RankedRow => q.scored)).mem_iff.mp (by exact h1)
      rwa [markSelected_map_scored] at h2
    exact (solveILP_some hs).2.2 r.scored hscored hm

/-- Witness for C1 at a concrete batch: with the constant estimator and floor
`1/5`, the batch `[offerA, offerC]` succeeds and the conclusion holds. -/
theorem select_unique_selected_max_witness :
    select_best_offer (fun q => q) egEngine [offerA, offerC] = .ok (bestC, rankedAC) ∧
    (rankedAC.countP (fun r => r.selected) = 1 ∧
      bestRow rankedAC ∈ rankedAC ∧ (bestRow rankedAC).selected = true ∧
      egEngine.marginFloor ≤ (bestRow rankedAC).scored.margin ∧
      ∀ r ∈ rankedAC, egEngine.marginFloor ≤ r.scored.margin →
        r.scored.utility ≤ (bestRow rankedAC).scored.utility) := by
  have h : select_best_offer (fun q => q) egEngine [offerA, offerC] =
      .ok (bestC, rankedAC) := by
    norm_num [select_best_offer, rankedTable, sortValuesUtilityDesc, markSelected,
      markFrom, scoreOffers, predict_prob, _add_derived, batchMin, solveILP,
      bestRow, bestSummary, pyRound3, roundHalfEven, leUtil, ScoredOffer.margin,
      List.insertionSort, List.orderedInsert, offerA, offerC, egEngine,
      exA, exC, bestC, rankedAC]
  exact ⟨h, select_unique_selected_max (fun q => q) egEngine [offerA, offerC]
    bestC rankedAC h⟩

/-- C2: `select_best_offer` fails (with the engine's single error, modelling
`RuntimeError("No feasible offer meets margin floor")`) precisely when every
offer's `quoted_margin_pct` is below the margin floor; and any selected row of
a returned frame meets the floor, so the constraint is never relaxed. -/
theorem infeasible_iff_all_below_floor (log1p : ℚ → ℚ) (e : InferenceEngine)
    (offers : List Offer)
    (hlen : (predict_prob log1p e offers).length = offers.length) :
    (select_best_offer log1p e offers = .error .infeasible ↔
      ∀ o ∈ offers, o.quoted_margin_pct < e.marginFloor) ∧
    ∀ r ∈ rankedOf (select_best_offer log1p e offers), r.selected = true →
      e.marginFloor ≤ r.scored.margin := by
  constructor
  · exact select_error_iff.trans
      (solveILP_none.trans (scoreOffers_margin_iff log1p e offers hlen e.marginFloor))
  · intro r hr hsel
    cases hs : solveILP e.marginFloor (scoreOffers log1p e offers) with
    | none =>
      rw [select_error_iff.mpr hs] at hr
      simp [rankedOf] at hr
    | some kt =>
      rcases kt with ⟨k, t⟩
      have hok : select_best_offer log1p e offers =
          .ok (bestSummary (bestRow (rankedTable log1p e offers k)),
               rankedTable log1p e offers k) := by
        unfold select_best_offer
        rw [hs]
      rw [hok] at hr
      simp only [rankedOf] at hr
      have hrf : r ∈ (rankedTable log1p e offers k).filter (fun q => q.selected) :=
        List.mem_filter.mpr ⟨hr, hsel⟩
      rw [ranked_filter_selected hs] at hrf
      have : r = { scored := t, selected := true } := List.mem_singleton.mp hrf
      rw [this]
      exact (solveILP_some hs).2.1

/-- Witness for C2 at a concrete batch: the single offer with margin `1/10`
is below the floor `1/5`, and the call fails. -/
theorem infeasible_iff_all_below_floor_witness :
    (predict_prob (fun q => q) egEngine [offerLow]).length = [offerLow].length ∧
    ((select_best_offer (fun q => q) egEngine [offerLow] = .error .infeasible ↔
        ∀ o ∈ [offerLow], o.quoted_margin_pct < egEngine.marginFloor) ∧
      ∀ r ∈ rankedOf (select_best_offer (fun q => q) egEngine [offerLow]),
        r.selected = true → egEngine.marginFloor ≤ r.scored.margin) := by
  have hlen : (predict_prob (fun q => q) egEngine [offerLow]).length =
      [offerLow].length := by
    simp [predict_prob, _add_derived, egEngine]
  exact ⟨hlen, infeasible_iff_all_below_floor (fun q => q) egEngine [offerLow] hlen⟩

/-- C3: on success the ranked frame is a permutation of the input rows
(augmented with the derived features, `p_win`, `utility`, `selected`) ordered
by utility descending, and rows of equal utility keep their input relative
order: each utility class of the frame equals the corresponding class of the
`selected`-labelled scored batch, which is itself an order-preserving
relabelling of the scored input. -/
theorem ranked_perm_desc_stable_ties (log1p : ℚ → ℚ) (e : InferenceEngine)
    (offers : List Offer) (best : BestOffer) (ranked : List RankedRow)
    (hlen : (predict_prob log1p e offers).length = offers.length)
    (h : select_best_offer log1p e offers = .ok (best, ranked)) :
    (ranked.map (fun r => r.scored.doffer.offer)).Perm offers ∧
    List.Pairwise (fun a b : RankedRow => b.scored.utility ≤ a.scored.utility)
      ranked ∧
    ∃ k, (markSelected (scoreOffers log1p e offers) k).map (fun r => r.scored) =
        scoreOffers log1p e offers ∧
      ∀ u : ℚ, ranked.filter (fun r => r.scored.utility = u) =
        (markSelected (scoreOffers log1p e offers) k).filter
          (fun r => r.scored.utility = u) := by
  obtain ⟨k, t, hs, hbest, hranked⟩ := select_ok_elim h
  subst hranked
  refine ⟨?_, sortValues_sorted _,
    ⟨k, markSelected_map_scored _ _, fun u => sortValues_filter_class _ u⟩⟩
  have hperm : ((rankedTable log1p e offers k).map
      (fun r => r.scored.doffer.offer)).Perm
      ((markSelected (scoreOffers log1p e offers) k).map
        (fun r => r.scored.doffer.offer)) :=
    (sortValues_perm _).map _
  have heq : (markSelected (scoreOffers log1p e offers) k).map
      (fun r => r.scored.doffer.offer) = offers := by
    have h1 : (markSelected (scoreOffers log1p e offers) k).map
        (fun r => r.scored.doffer.offer) =
        ((markSelected (scoreOffers log1p e offers) k).map
          (fun r => r.scored)).map (fun s => s.doffer.offer) := by
      rw [List.map_map]
      rfl
    rw [h1, markSelected_map_scored]
    exact scoreOffers_map_offer log1p e offers hlen
  rw [heq] at hperm
  exact hperm

/-- Witness for C3 at the tied batch `[offerA, offerB]` (equal utilities
`1/8`): the ranked frame keeps the input order A before B. -/
theorem ranked_perm_desc_stable_ties_witness :
    ((predict_prob (fun q => q) egEngine [offerA, offerB]).length =
        [offerA, offerB].length ∧
      select_best_offer (fun q => q) egEngine [offerA, offerB] =
        .ok (bestA, rankedAB) ∧
      exA.utility = exB.utility ∧
      rankedAB = [{ scored := exA, selected := true },
                  { scored := exB, selected := false }]) ∧
    ((rankedAB.map (fun r => r.scored.doffer.offer)).Perm [offerA, offerB] ∧
      List.Pairwise (fun a b : RankedRow => b.scored.utility ≤ a.scored.utility)
        rankedAB ∧
      ∃ k, (markSelected (scoreOffers (fun q => q) egEngine [offerA, offerB]) k).map
          (fun r => r.scored) = scoreOffers (fun q => q) egEngine [offerA, offerB] ∧
        ∀ u : ℚ, rankedAB.filter (fun r => r.scored.utility = u) =
          (markSelected (scoreOffers (fun q => q) egEngine [offerA, offerB]) k).filter
            (fun r => r.scored.utility = u)) := by
  have hlen : (predict_prob (fun q => q) egEngine [offerA, offerB]).length =
      [offerA, offerB].length := by
    simp [predict_prob, _add_derived, egEngine]
  have h : select_best_offer (fun q => q) egEngine [offerA, offerB] =
      .ok (bestA, rankedAB) := by
    norm_num [select_best_offer, rankedTable, sortValuesUtilityDesc, markSelected,
      markFrom, scoreOffers, predict_prob, _add_derived, batchMin, solveILP,
      bestRow, bestSummary, pyRound3, roundHalfEven, leUtil, ScoredOffer.margin,
      List.insertionSort, List.orderedInsert, offerA, offerB, egEngine,
      exA, exB, bestA, rankedAB]
  exact ⟨⟨hlen, h, rfl, rfl⟩, ranked_perm_desc_stable_ties (fun q => q) egEngine
    [offerA, offerB] bestA rankedAB hlen h⟩

/-- C5 (amended): for a non-empty batch of positive unit prices, every derived
row carries `price_delta_pct = unit_price / min(unit_price) − 1` and
`lead_delta_days = lead_time_days − min(lead_time_days)`, both non-negative,
and at least one row attains `0` in each column (every row whose raw value is
the batch minimum does, so a single-offer batch yields `0` and `0`). -/
theorem derived_deltas_nonneg_attained (log1p : ℚ → ℚ) (offers : List Offer)
    (hne : offers ≠ []) (hpos : ∀ o ∈ offers, 0 < o.unit_price) :
    (∀ d ∈ _add_derived log1p offers,
      d.price_delta_pct =
        d.offer.unit_price / batchMin (offers.map (fun p => p.unit_price)) - 1 ∧
      d.lead_delta_days =
        d.offer.lead_time_days - batchMin (offers.map (fun p => p.lead_time_days)) ∧
      0 ≤ d.price_delta_pct ∧ 0 ≤ d.lead_delta_days) ∧
    (∃ d ∈ _add_derived log1p offers, d.price_delta_pct = 0) ∧
    (∃ d ∈ _add_derived log1p offers, d.lead_delta_days = 0) := by
  have hpne : offers.map (fun p => p.unit_price) ≠ [] := by
    simpa using hne
  have hlne : offers.map (fun p => p.lead_time_days) ≠ [] := by
    simpa using hne
  have hminpos : 0 < batchMin (offers.map (fun p => p.unit_price)) := by
    refine batchMin_pos hpne ?_
    intro x hx
    rcases List.mem_map.mp hx with ⟨o, ho, rfl⟩
    exact hpos o ho
  refine ⟨?_, ?_, ?_⟩
  · intro d hd
    rcases List.mem_map.mp hd with ⟨o, ho, rfl⟩
    refine ⟨rfl, rfl, ?_, ?_⟩
    · have hle : batchMin (offers.map (fun p => p.unit_price)) ≤ o.unit_price :=
        batchMin_le (List.mem_map.mpr ⟨o, ho, rfl⟩)
      have h1 : (1:ℚ) ≤ o.unit_price / batchMin (offers.map (fun p => p.unit_price)) :=
        (one_le_div hminpos).mpr hle
      simpa using sub_nonneg.mpr h1
    · have hle : batchMin (offers.map (fun p => p.lead_time_days)) ≤ o.lead_time_days :=
        batchMin_le (List.mem_map.mpr ⟨o, ho, rfl⟩)
      simpa using sub_nonneg.mpr hle
  · rcases List.mem_map.mp (batchMin_mem hpne) with ⟨o, ho, hmin⟩
    refine ⟨_, List.mem_map.mpr ⟨o, ho, rfl⟩, ?_⟩
    show o.unit_price / batchMin (offers.map (fun p => p.unit_price)) - 1 = 0
    rw [← hmin, div_self (ne_of_gt (by rw [hmin]; exact hminpos))]
    ring
  · rcases List.mem_map.mp (batchMin_mem hlne) with ⟨o, ho, hmin⟩
    refine ⟨_, List.mem_map.mpr ⟨o, ho, rfl⟩, ?_⟩
    show o.lead_time_days - batchMin (offers.map (fun p => p.lead_time_days)) = 0
    rw [← hmin]
    ring

/-- Witness for C5's amended statement: the single-offer batch `[offerA]`
yields `price_delta_pct = 0` and `lead_delta_days = 0`. -/
theorem derived_deltas_nonneg_attained_witness :
    (([offerA] : List Offer) ≠ [] ∧ ∀ o ∈ [offerA], 0 < o.unit_price) ∧
    ((∀ d ∈ _add_derived (fun q => q) [offerA],
        d.price_delta_pct =
          d.offer.unit_price / batchMin ([offerA].map (fun p => p.unit_price)) - 1 ∧
        d.lead_delta_days =
          d.offer.lead_time_days - batchMin ([offerA].map (fun p => p.lead_time_days)) ∧
        0 ≤ d.price_delta_pct ∧ 0 ≤ d.lead_delta_days) ∧
      (∃ d ∈ _add_derived (fun q => q) [offerA], d.price_delta_pct = 0) ∧
      (∃ d ∈ _add_derived (fun q => q) [offerA], d.lead_delta_days = 0)) := by
  have hne : ([offerA] : List Offer) ≠ [] := by simp
  have hpos : ∀ o ∈ [offerA], 0 < o.unit_price := by
    intro o ho
    rw [List.mem_singleton.mp ho]
    norm_num [offerA]
  exact ⟨⟨hne, hpos⟩, derived_deltas_nonneg_attained (fun q => q) [offerA] hne hpos⟩

/-- Counterexample to C5 as stated: in the batch `[offerA, offerB]` BOTH rows
(equal minimum unit price and equal minimum lead time) have
`price_delta_pct = 0` and `lead_delta_days = 0`, not exactly one; and with
negative unit prices (batch `[offerNegP, offerNegQ]`) `price_delta_pct` is
negative for the second row. -/
theorem derived_exactly_one_zero_counterexample :
    _add_derived (fun q => q) [offerA, offerB] =
      [{ offer := offerA, price_delta_pct := 0, lead_delta_days := 0,
         quantity_log := 1 },
       { offer := offerB, price_delta_pct := 0, lead_delta_days := 0,
         quantity_log := 1 }] ∧
    offerA ≠ offerB ∧
    (∃ d ∈ _add_derived (fun q => q) [offerNegP, offerNegQ],
      d.price_delta_pct < 0) := by
  refine ⟨?_, by simp [offerA, offerB], ?_⟩
  · norm_num [_add_derived, batchMin, offerA, offerB]
  · refine ⟨negDQ, ?_, by norm_num [negDQ]⟩
    norm_num [_add_derived, batchMin, offerNegP, offerNegQ, negDQ]

/-- C6 (amended): feature derivation performs no validation and never fails:
for every batch — including the empty batch and batches with negative
`unit_price` or `lead_time_days` — `_add_derived` totally returns one derived
row per input row, carrying the input offers unchanged. -/
theorem add_derived_total_no_validation (log1p : ℚ → ℚ) (offers : List Offer) :
    (_add_derived log1p offers).length = offers.length ∧
    (_add_derived log1p offers).map (fun d => d.offer) = offers :=
  ⟨_add_derived_length log1p offers, _add_derived_map_offer log1p offers⟩

/-- Counterexample to C6 as stated: the empty batch and a batch whose
`unit_price` and `lead_time_days` are negative are both processed without any
failure — there is no `InvalidInput` error path in the code. -/
theorem no_invalid_input_counterexample :
    _add_derived (fun q => q) [] = [] ∧
    offerNegP.unit_price < 0 ∧ offerNegP.lead_time_days < 0 ∧
    _add_derived (fun q => q) [offerNegP] =
      [{ offer := offerNegP, price_delta_pct := 0, lead_delta_days := 0,
         quantity_log := 7 }] := by
  refine ⟨rfl, by norm_num [offerNegP], by norm_num [offerNegP], ?_⟩
  norm_num [_add_derived, batchMin, offerNegP]

/-- C7: `select_best_offer` is deterministic: two calls that agree on the
numeric primitive, the engine's margin floor and estimator, and the offer
batch produce identical summaries and ranked frames — the whole
derive → score → optimise path is a function of those inputs alone. -/
theorem select_deterministic (l₁ l₂ : ℚ → ℚ) (e₁ e₂ : InferenceEngine)
    (o₁ o₂ : List Offer) (hl : l₁ = l₂) (hf : e₁.marginFloor = e₂.marginFloor)
    (hp : e₁.predictProba = e₂.predictProba) (ho : o₁ = o₂) :
    select_best_offer l₁ e₁ o₁ = select_best_offer l₂ e₂ o₂ := by
  cases e₁ with
  | mk f₁ p₁ =>
    cases e₂ with
    | mk f₂ p₂ =>
      dsimp at hf hp
      subst hl
      subst hf
      subst hp
      subst ho
      rfl

/-- Witness for C7: two calls with equal inputs on the concrete batch. -/
theorem select_deterministic_witness :
    ((fun q : ℚ => q) = (fun q : ℚ => q) ∧
      egEngine.marginFloor = egEngine.marginFloor ∧
      egEngine.predictProba = egEngine.predictProba ∧
      ([offerA, offerC] : List Offer) = [offerA, offerC]) ∧
    select_best_offer (fun q => q) egEngine [offerA, offerC] =
      select_best_offer (fun q => q) egEngine [offerA, offerC] :=
  ⟨⟨rfl, rfl, rfl, rfl⟩,
    select_deterministic (fun q => q) (fun q => q) egEngine egEngine
      [offerA, offerC] [offerA, offerC] rfl rfl rfl rfl⟩

/-- C8: on success the summary is built from the unique `selected` row by
`bestSummary` — its supplier identifier together with `round(·, 3)` of the
row's `p_win`, `quoted_margin_pct` and `utility` — while the ranked frame
still carries exactly the unrounded scored rows (the rounding happens only in
the summary dict, never in the frame). -/
theorem best_summary_rounded_frame_unrounded (log1p : ℚ → ℚ)
    (e : InferenceEngine) (offers : List Offer) (best : BestOffer)
    (ranked : List RankedRow)
    (h : select_best_offer log1p e offers = .ok (best, ranked)) :
    ranked.filter (fun r => r.selected) = [bestRow ranked] ∧
    best = bestSummary (bestRow ranked) ∧
    best.p_win = pyRound3 (bestRow ranked).scored.p_win ∧
    best.margin_pct = pyRound3 (bestRow ranked).scored.margin ∧
    best.utility = pyRound3 (bestRow ranked).scored.utility ∧
    best.supplier_id = (bestRow ranked).scored.doffer.offer.supplier_id ∧
    (ranked.map (fun r => r.scored)).Perm (scoreOffers log1p e offers) := by
  obtain ⟨k, t, hs, hbest, hranked⟩ := select_ok_elim h
  subst hranked
  have hfil := ranked_filter_selected hs
  have hbr : bestRow (rankedTable log1p e offers k) =
      { scored := t, selected := true } := bestRow_of_filter hfil
  subst hbest
  refine ⟨by rw [hfil, hbr], rfl, rfl, rfl, rfl, rfl, ?_⟩
  have hperm : ((rankedTable log1p e offers k).map (fun r => r.scored)).Perm
      ((markSelected (scoreOffers log1p e offers) k).map (fun r => r.scored)) :=
    (sortValues_perm _).map _
  rwa [markSelected_map_scored] at hperm

/-- Witness for C8 at the concrete batch `[offerA, offerC]`. -/
theorem best_summary_rounded_frame_unrounded_witness :
    select_best_offer (fun q => q) egEngine [offerA, offerC] =
      .ok (bestC, rankedAC) ∧
    (rankedAC.filter (fun r => r.selected) = [bestRow rankedAC] ∧
      bestC = bestSummary (bestRow rankedAC) ∧
      bestC.p_win = pyRound3 (bestRow rankedAC).scored.p_win ∧
      bestC.margin_pct = pyRound3 (bestRow rankedAC).scored.margin ∧
      bestC.utility = pyRound3 (bestRow rankedAC).scored.utility ∧
      bestC.supplier_id = (bestRow rankedAC).scored.doffer.offer.supplier_id ∧
      (rankedAC.map (fun r => r.scored)).Perm
        (scoreOffers (fun q => q) egEngine [offerA, offerC])) := by
  have h : select_best_offer (fun q => q) egEngine [offerA, offerC] =
      .ok (bestC, rankedAC) := by
    norm_num [select_best_offer, rankedTable, sortValuesUtilityDesc, markSelected,
      markFrom, scoreOffers, predict_prob, _add_derived, batchMin, solveILP,
      bestRow, bestSummary, pyRound3, roundHalfEven, leUtil, ScoredOffer.margin,
      List.insertionSort, List.orderedInsert, offerA, offerC, egEngine,
      exA, exC, bestC, rankedAC]
  exact ⟨h, best_summary_rounded_frame_unrounded (fun q => q) egEngine
    [offerA, offerC] bestC rankedAC h⟩

/-- C9: the caller's `offers` frame is unchanged by `select_best_offer`: the
body's first statement copies it (`offers.copy().reset_index(drop=True)`) and
every later column write targets the copy, so running the call against the
caller's frame as state returns the pure result and leaves the state exactly
as it was — also when the call fails. -/
theorem caller_offers_frame_unchanged (log1p : ℚ → ℚ) (e : InferenceEngine)
    (offers : List Offer) :
    (select_best_offer_call log1p e).run offers =
      (select_best_offer log1p e offers, offers) := rfl

/-- C10: an engine constructed without an explicit `margin_floor` stores the
default `0.20`, and every `select_best_offer` call on it behaves exactly as
with an engine whose floor is `1/5`. -/
theorem default_margin_floor_used (pipeline : List DerivedOffer → List ℚ)
    (log1p : ℚ → ℚ) (offers : List Offer) :
    (InferenceEngine.initDefault pipeline).marginFloor = 1/5 ∧
    select_best_offer log1p (InferenceEngine.initDefault pipeline) offers =
      select_best_offer log1p
        { marginFloor := 1/5, predictProba := pipeline } offers :=
  ⟨rfl, rfl⟩

end HelloPrint
